import Mathlib

/-!
Verification of the `anki` deck engine (Rust sources) against its
natural-language specification.

The development shallowly embeds the data model and the algorithms of the
sources:

* `src/types/note.rs`, `src/types/config.rs` — the note data model;
* `src/uuid_generator.rs` — deterministic v5-UUID derivations;
* `src/change_router.rs` — `determine_changes`, the two-version diff;
* `src/change_resolver.rs` — `resolve_changes`, the substrate updater;
* `src/types/deck/methods.rs` — the history fold (`process_card_history`,
  `process_cycle`, `initialize_cards`);
* `src/parse.rs` — the `flash` parser's validation fold over parsed items,
  the `NoteBuilder`, and the `ImportExpander`.

Machine integers (`usize`, `i64`, `u32`, `i32`) are modelled as `Nat`/`Int`;
the list/vector operations stay far below any overflow boundary, and no
arithmetic in the embedded code wraps.  Rust `Vec` is `List`, `HashSet` is a
duplicate-free list in insertion order (Rust's iteration order is
unspecified), `HashMap` is an association list with first-match lookup and
insert-by-prepend (observably last-insert-wins, like the original).
Fallible Rust functions returning `Result` become `Except`; `panic!` sites
(unguarded indexing) are modelled twice: once totally (out-of-bounds
indexing leaves the list unchanged) and once in a checked variant returning
`Option`, where `none` marks exactly the accesses on which the original
panics.
-/

namespace Anki

/-- Symbolic model of `uuid::Uuid`.  The program builds UUIDs only through
`Uuid::default()` (the nil UUID), the `NAMESPACE_DNS` constant, and
name-based `Uuid::new_v5(namespace, name)`; we model the v5 derivation as a
free constructor (idealizing SHA-1 as injective on the inputs that occur). -/
inductive Uuid where
  | nil : Uuid
  | dns : Uuid
  | v5 (ns : Uuid) (name : String) : Uuid
deriving DecidableEq, Ord, Repr

/-- Lexicographic comparison of lists, the order `derive(Ord)` gives Rust
vectors; used by the `Ord` deriving of the structures below. -/
def compareList {α : Type} [Ord α] : List α → List α → Ordering
  | [], [] => .eq
  | [], _ :: _ => .lt
  | _ :: _, [] => .gt
  | a :: as, b :: bs =>
      match compare a b with
      | .eq => compareList as bs
      | o => o

instance {α : Type} [Ord α] : Ord (List α) :=
  ⟨compareList⟩

/-- Model of `semver::Version` (`schema_version` in `NoteModel`): the three
numeric components; pre-release/build metadata never occur in the sources. -/
structure Version where
  major : Nat
  minor : Nat
  patch : Nat
deriving DecidableEq, Ord, Repr

/-- `Template` from `src/types/config.rs`. -/
structure Template where
  name : String
  order : Int
  question_format : String
  answer_format : String
  browser_question_format : String
  browser_answer_format : String
deriving DecidableEq, Ord, Repr

/-- `Defaults` from `src/types/config.rs`. -/
structure Defaults where
  font : String
  size : Nat
  rtl : Bool
deriving DecidableEq, Ord, Repr

/-- `Field` from `src/types/note.rs` (a model's field declaration).
`PathBuf` is modelled as a path string. -/
structure Field where
  name : String
  sticky : Option Bool
  associated_media : Option (List String)
deriving DecidableEq, Ord, Repr

/-- `NoteModel` from `src/types/note.rs`.  The `required` field holds an
`evalexpr::Node` boolean expression in the original; we model it by its
source text, which is all the embedded code ever compares. -/
structure NoteModel where
  name : String
  id : Uuid
  templates : List Template
  schema_version : Version
  defaults : Option Defaults
  css : String
  fields : List Field
  latex_pre : Option String
  latex_post : Option String
  sort_field : Option String
  tags : Option (List String)
  required : String
deriving DecidableEq, Ord, Repr

/-- `Cloze` from `src/types/note.rs`. -/
structure Cloze where
  id : Nat
  answer : String
  hint : Option String
deriving DecidableEq, Ord, Repr

/-- `TextElement` from `src/types/note.rs`. -/
inductive TextElement where
  | text (s : String) : TextElement
  | cloze (c : Cloze) : TextElement
deriving DecidableEq, Ord, Repr

/-- `NoteField` from `src/types/note.rs`. -/
structure NoteField where
  name : String
  content : List TextElement
deriving DecidableEq, Ord, Repr

/-- `Note` from `src/types/note.rs`.  The `Cow<'a, NoteModel>` borrow is
value semantics here, which is exactly what `PartialEq`/`Ord` compare. -/
structure Note where
  fields : List NoteField
  model : NoteModel
  tags : List String
deriving DecidableEq, Ord, Repr

/-- `Identified<T>` from `src/types/note.rs`. -/
structure Identified (T : Type) where
  id : Uuid
  inner : T
deriving DecidableEq, Repr

/-- `create_host_uuid` from `src/uuid_generator.rs`:
`Uuid::new_v5(&Uuid::NAMESPACE_DNS, format!("{}{}", author, time).as_bytes())`. -/
def create_host_uuid (author : String) (time : Int) : Uuid :=
  Uuid.v5 Uuid.dns (author ++ toString time)

/-- `generate_note_uuid` from `src/uuid_generator.rs`. -/
def generate_note_uuid (host_uuid : Uuid) (content : String) : Uuid :=
  Uuid.v5 host_uuid content

/-- Modelled from the spec: the textual projection of a `TextElement` used
by `content_string` (spec §4.4).  The trait `Identifiable` that declares
`to_content_string`/`identified` (used in `change_resolver.rs` and
`types/deck/methods.rs`, impl'd for `Note` in `types/note.rs`) has no
definition among the available sources; `Text(s)` projects to `s` and
`Cloze { answer, .. }` to `answer`. -/
def TextElement.projection : TextElement → String
  | .text s => s
  | .cloze c => c.answer

/-- Modelled from the spec: `content_string(note)` (spec §4.4) — for each
field in order, the field's name followed by the NUL-separated
concatenation of its elements' textual projections.  Stands in for the
missing `Identifiable::to_content_string`. -/
def Note.to_content_string (n : Note) : String :=
  String.join (n.fields.map (fun f =>
    f.name ++ String.intercalate "\x00" (f.content.map TextElement.projection)))

/-- Modelled from the spec: `Identifiable::identified`, pairing a note with
an id into `Identified { id, inner }` (used by `initialize_cards`). -/
def Note.identified (n : Note) (id : Uuid) : Identified Note :=
  { id := id, inner := n }

/-- `Transforms` from `src/change_router.rs`.  `Reorders` is a `HashSet` in
the original; here a duplicate-free list in insertion order. -/
inductive Transforms where
  | Additions (l : List (Nat × Note)) : Transforms
  | Deletions (l : List Nat) : Transforms
  | Modifications (l : List (Nat × Note)) : Transforms
  | Reorders (s : List (Nat × Nat)) : Transforms
deriving DecidableEq, Repr

/-- The variants of `DeckError` (src/error.rs and its uses in
`types/deck/methods.rs`) that the embedded code can mention.
`determine_changes` never constructs an error. -/
inductive DeckError where
  | EmptyHistory : DeckError
  | Parse (msg : String) : DeckError
deriving DecidableEq, Repr

deriving instance DecidableEq for Except

/-- The addition-scanning loop of `determine_changes`
(src/change_router.rs, the `deck_2.len() > deck_1.len()` arm): two cursors,
both advance on equality, otherwise `(deck_2_idx, deck_2[deck_2_idx])` is
recorded and only the new-deck cursor advances.  The first list is the
unconsumed rest of `deck_1`, the second the unconsumed rest of `deck_2`,
`i2` the current `deck_2_idx`. -/
def additions_walk : List Note → List Note → Nat → List (Nat × Note)
  | _, [], _ => []
  | [], n2 :: d2, i2 => (i2, n2) :: additions_walk [] d2 (i2 + 1)
  | n1 :: d1, n2 :: d2, i2 =>
      if n1 = n2 then additions_walk d1 d2 (i2 + 1)
      else (i2, n2) :: additions_walk (n1 :: d1) d2 (i2 + 1)

/-- The deletion-scanning loop of `determine_changes` (the
`deck_1.len() > deck_2.len()` arm), the mirror image of `additions_walk`:
indices are into `deck_1`. -/
def deletions_walk : List Note → List Note → Nat → List Nat
  | [], _, _ => []
  | _ :: d1, [], i1 => i1 :: deletions_walk d1 [] (i1 + 1)
  | n1 :: d1, n2 :: d2, i1 =>
      if n1 = n2 then deletions_walk d1 d2 (i1 + 1)
      else i1 :: deletions_walk d1 (n2 :: d2) (i1 + 1)

/-- `HashSet::insert`: add the pair unless already present.  Iteration
order of the model is insertion order (the original's is unspecified). -/
def hashset_insert (s : List (Nat × Nat)) (p : Nat × Nat) : List (Nat × Nat) :=
  if p ∈ s then s else s ++ [p]

/-- The reorder-collection loop of `determine_changes` (equal lengths,
equal sorted copies): for each position where the cards differ, find where
the old card sits in the new deck and insert the normalized index pair.
`d1`/`d2` are the unconsumed rests of the two decks being zipped, `full2`
the whole new deck (searched by `position`), `i` the current index, `s` the
accumulated set. -/
def reorder_pairs_walk :
    List Note → List Note → List Note → Nat → List (Nat × Nat) → List (Nat × Nat)
  | [], _, _, _, s => s
  | _ :: _, [], _, _, s => s
  | card1 :: d1, card2 :: d2, full2, i, s =>
      let s' :=
        if card1 ≠ card2 then
          match full2.findIdx? (fun cur => cur == card1) with
          | some j => hashset_insert s (if i < j then (i, j) else (j, i))
          | none => s
        else s
      reorder_pairs_walk d1 d2 full2 (i + 1) s'

/-- Disjointness of two index pairs: no position is shared.  This is the
side condition under which a set of transpositions is order-independent
(spec 4.6: "the set is composed of disjoint transpositions under the
single-change invariant"). -/
def pair_disjoint (p q : Nat × Nat) : Prop :=
  p.1 ≠ q.1 ∧ p.1 ≠ q.2 ∧ p.2 ≠ q.1 ∧ p.2 ≠ q.2

instance (p q : Nat × Nat) : Decidable (pair_disjoint p q) := by
  unfold pair_disjoint; exact inferInstance

/-- All reorder pairs between two equal-length decks (the `reorderings`
set of `determine_changes`). -/
def reorder_pairs (deck1 deck2 : List Note) : List (Nat × Nat) :=
  reorder_pairs_walk deck1 deck2 deck2 0 []

/-- The modification-collection loop of `determine_changes` (equal
lengths, different sorted copies): every position whose cards differ is
reported with the new card. -/
def modifications_list (deck1 deck2 : List Note) : List (Nat × Note) :=
  (deck1.zip deck2).enum.filterMap (fun p =>
    if p.2.1 ≠ p.2.2 then some (p.1, p.2.2) else none)

/-- The `Ord`-derived total order on notes used by `Vec::sort` in
`determine_changes` (Rust derives `Ord` lexicographically over
`fields`, `model`, `tags`, as does Lean's `Ord` deriving). -/
def noteLe (a b : Note) : Bool :=
  (compare a b).isLE

/-- Insertion step of `sortNotes`. -/
def insertSorted (a : Note) : List Note → List Note
  | [] => [a]
  | b :: bs => if noteLe a b then a :: b :: bs else b :: insertSorted a bs

/-- `Vec::sort` on note vectors: a stable sort by the derived order.  The
original uses a stable merge sort; `determine_changes` only compares the
two sorted copies for equality, for which any stable sort by the same
total order is interchangeable; insertion sort keeps the model
kernel-computable. -/
def sortNotes : List Note → List Note
  | [] => []
  | a :: as => insertSorted a (sortNotes as)

/-- `determine_changes` from `src/change_router.rs`.  The function's
`Result` never carries an error; the `Except` layer mirrors the Rust
signature. -/
def determine_changes (deck1 deck2 : List Note) :
    Except DeckError (Option Transforms) :=
  if deck1 = deck2 then .ok none
  else if deck1.length ≠ deck2.length then
    if deck2.length > deck1.length then
      .ok (some (.Additions (additions_walk deck1 deck2 0)))
    else
      .ok (some (.Deletions (deletions_walk deck1 deck2 0).reverse))
  else
    let sorted1 := sortNotes deck1
    let sorted2 := sortNotes deck2
    if sorted1 = sorted2 then
      .ok (some (.Reorders (reorder_pairs deck1 deck2)))
    else
      .ok (some (.Modifications (modifications_list deck1 deck2)))

/-- `Vec::swap(from, to)` on a list, total model: both elements are read
and written back crosswise; out-of-bounds indices (a panic in Rust) leave
the list unchanged. -/
def list_swap {α : Type} (l : List α) (i j : Nat) : List α :=
  match l[i]?, l[j]? with
  | some a, some b => (l.set i b).set j a
  | _, _ => l

/-- `resolve_changes` from `src/change_resolver.rs`, total model.  The
`Cow` clones that detach the inserted note from its source buffer are
identities on values.  Out-of-bounds `remove`/index/`swap` (panics in
Rust) leave the substrate unchanged here; `resolve_changes_checked` below
tracks those panics precisely. -/
def resolve_changes (transformations : Transforms)
    (substrate : List (Identified Note)) (host_uuid : Uuid) :
    List (Identified Note) :=
  match transformations with
  | .Additions additions =>
      additions.foldl (fun s p =>
        List.insertIdx p.1
          { id := generate_note_uuid host_uuid p.2.to_content_string
            inner := p.2 } s) substrate
  | .Deletions deletions =>
      deletions.foldl (fun s idx => s.eraseIdx idx) substrate
  | .Modifications modifications =>
      modifications.foldl (fun s p =>
        match s[p.1]? with
        | some existing => s.set p.1 { id := existing.id, inner := p.2 }
        | none => s) substrate
  | .Reorders mappings =>
      mappings.foldl (fun s p => list_swap s p.1 p.2) substrate

/-- Checked counterpart of `resolve_changes`: `none` exactly when the
original would panic on an out-of-bounds `Vec` access (`insert` requires
`idx ≤ len`, `remove`/indexing/`swap` require `idx < len`). -/
def resolve_changes_checked (transformations : Transforms)
    (substrate : List (Identified Note)) (host_uuid : Uuid) :
    Option (List (Identified Note)) :=
  match transformations with
  | .Additions additions =>
      additions.foldlM (fun s p =>
        if p.1 ≤ s.length then
          some (List.insertIdx p.1
            { id := generate_note_uuid host_uuid p.2.to_content_string
              inner := p.2 } s)
        else none) substrate
  | .Deletions deletions =>
      deletions.foldlM (fun s idx =>
        if idx < s.length then some (s.eraseIdx idx) else none) substrate
  | .Modifications modifications =>
      modifications.foldlM (fun s p =>
        match s[p.1]? with
        | some existing => some (s.set p.1 { id := existing.id, inner := p.2 })
        | none => none) substrate
  | .Reorders mappings =>
      mappings.foldlM (fun s p =>
        if p.1 < s.length ∧ p.2 < s.length then some (list_swap s p.1 p.2)
        else none) substrate

/-- The in-bounds precondition for a `Deletions` list: each index is below
the substrate's length at the moment it is used (each removal shrinks the
list by one). -/
def deletions_in_bounds : List Nat → Nat → Bool
  | [], _ => true
  | i :: rest, n => decide (i < n) && deletions_in_bounds rest (n - 1)

/-- `initialize_cards` from `src/types/deck/methods.rs` composed with
`Deck::generate_note_uuids`: the first revision's notes are paired with
`generate_note_uuid(host_uuid, content_string(note))` and wrapped by
`identified`.  `host_uuid` is `create_host_uuid` of the first commit's
author and time. -/
def initialize_cards (first_cards : List Note) (host_uuid : Uuid) :
    List (Identified Note) :=
  let uuids := first_cards.map (fun note =>
    generate_note_uuid host_uuid note.to_content_string)
  (first_cards.zip uuids).map (fun p => p.1.identified p.2)

/-- `process_cycle` from `src/types/deck/methods.rs`.  Note the original
passes `Uuid::default()` — the nil UUID, modelled by `Uuid.nil` — as the
host namespace to `resolve_changes`, not the host UUID of the deck. -/
def process_cycle (last_cards current_cards : List Note)
    (static_cards : List (Identified Note)) :
    Except DeckError (List (Identified Note)) :=
  match determine_changes last_cards current_cards with
  | .error e => .error e
  | .ok none => .ok static_cards
  | .ok (some changes) => .ok (resolve_changes changes static_cards Uuid.nil)

/-- The `for` loop of `process_card_history`: each remaining revision is
diffed against `bygone_cards` via `process_cycle`, then becomes the new
`bygone_cards`. -/
def process_history_loop :
    List (List Note) → List Note → List (Identified Note) →
    Except DeckError (List (Identified Note))
  | [], _, elder_cards => .ok elder_cards
  | cards_of_the_day :: rest, bygone_cards, elder_cards =>
      match process_cycle bygone_cards cards_of_the_day elder_cards with
      | .error e => .error e
      | .ok elder' => process_history_loop rest cards_of_the_day elder'

/-- `process_card_history` from `src/types/deck/methods.rs`, abstracted
over the VCS/parsing boundary: `revisions` holds, oldest first, the notes
parsed from each historical revision of the file, and `author`/`time` are
the first commit's metadata (the only commit metadata the function uses).
`bygone_cards` starts as the *empty* vector — the original's
`Vec::with_capacity(first_cards.len())` — and is first overwritten only
after the first loop iteration has already used it. -/
def process_card_history (revisions : List (List Note)) (author : String)
    (time : Int) : Except DeckError (List (Identified Note)) :=
  match revisions with
  | [] => .error DeckError.EmptyHistory
  | first_cards :: rest =>
      let host_uuid := create_host_uuid author time
      let elder_cards := initialize_cards first_cards host_uuid
      process_history_loop rest [] elder_cards

/-- `FlashItem` from `src/types/parser.rs` — the parsed line items the
`flash` grammar produces (`from_`/`to_` stand for the original's
`from`/`to`, a reserved word here). -/
inductive FlashItem where
  | NoteModel (name : String) : FlashItem
  | Alias (from_ to_ : String) : FlashItem
  | Tags (tags : List String) : FlashItem
  | Field (name : String) (content : List TextElement) : FlashItem
  | Comment (s : String) : FlashItem
  | BlankLine : FlashItem
deriving DecidableEq, Repr

/-- `FlashError` from `src/parse.rs` — the semantic diagnostics the
validation fold emits (via `Rich::custom`; we record the payloads). -/
inductive FlashError where
  | UnknownModel (name available : String) : FlashError
  | UnknownField (model field : String) : FlashError
  | InvalidAliasTarget (model alias_ target : String) : FlashError
  | ModelNotSpecified : FlashError
  | DuplicateField (field : String) : FlashError
deriving DecidableEq, Repr

/-- `NoteBuilder` from `src/parse.rs`.  The alias `HashMap` is an
association list: insert prepends, lookup takes the first match
(last-insert-wins, as in the original). -/
structure NoteBuilder where
  current_model : Option NoteModel
  aliases : List (String × String)
  tags : List String
  fields : List NoteField
  notes : List Note
deriving Repr

/-- `NoteBuilder::default()`. -/
def NoteBuilder.default : NoteBuilder :=
  { current_model := none, aliases := [], tags := [], fields := [], notes := [] }

/-- `NoteBuilder::has_pending_note`. -/
def NoteBuilder.has_pending_note (b : NoteBuilder) : Bool :=
  !b.fields.isEmpty

/-- `NoteBuilder::clear_current_note`. -/
def NoteBuilder.clear_current_note (b : NoteBuilder) : NoteBuilder :=
  { b with fields := [], tags := [] }

/-- `NoteBuilder::finalize_note`: emit a note when fields are pending and a
model is active; without a model the pending fields and tags are dropped. -/
def NoteBuilder.finalize_note (b : NoteBuilder) : NoteBuilder :=
  if b.has_pending_note then
    match b.current_model with
    | some model =>
        { b with
          notes := b.notes ++ [{ fields := b.fields, model := model, tags := b.tags }]
          fields := []
          tags := [] }
    | none => b.clear_current_note
  else b

/-- `NoteBuilder::set_tags`. -/
def NoteBuilder.set_tags (b : NoteBuilder) (tags : List String) : NoteBuilder :=
  { b with tags := tags }

/-- `NoteBuilder::add_tags`. -/
def NoteBuilder.add_tags (b : NoteBuilder) (tags : List String) : NoteBuilder :=
  { b with tags := b.tags ++ tags }

/-- `NoteBuilder::add_field`. -/
def NoteBuilder.add_field (b : NoteBuilder) (field : NoteField) : NoteBuilder :=
  { b with fields := b.fields ++ [field] }

/-- `NoteBuilder::resolve_field_name`: map an authoring label through the
alias table, defaulting to itself. -/
def NoteBuilder.resolve_field_name (b : NoteBuilder) (name : String) : String :=
  match b.aliases.lookup name with
  | some canonical => canonical
  | none => name

/-- `NoteBuilder::has_alias`. -/
def NoteBuilder.has_alias (b : NoteBuilder) (alias_ : String) : Bool :=
  (b.aliases.lookup alias_).isSome

/-- `NoteBuilder::add_alias`: registers `to → from` while a model is
active. -/
def NoteBuilder.add_alias (b : NoteBuilder) (from_ to_ : String) : NoteBuilder :=
  if b.current_model.isSome then { b with aliases := (to_, from_) :: b.aliases }
  else b

/-- `NoteBuilder::into_notes`. -/
def NoteBuilder.into_notes (b : NoteBuilder) : List Note :=
  b.finalize_note.notes

/-- `HashSet::insert` for the `defined_fields` set of the validation
fold. -/
def hashset_insert_str (s : List String) (x : String) : List String :=
  if x ∈ s then s else s ++ [x]

/-- The running state of the `validate` closure in `flash`
(src/parse.rs): the `NoteBuilder`, the closure's own `current_model` and
`defined_fields` locals, and the diagnostics emitted so far. -/
structure FlashState where
  builder : NoteBuilder
  current_model : Option NoteModel
  defined_fields : List String
  diagnostics : List FlashError
deriving Repr

/-- One iteration of the item loop inside `flash`'s `validate` closure
(src/parse.rs, the `for (item, item_span) in items` body), translated
branch by branch.  Note: the `Field` arm pushes `NoteField { name, .. }`
with the *unresolved* name, the `BlankLine` arm does nothing, and an
unknown model name resets only the closure's `current_model`, not the
builder's. -/
def flash_step (available_models : List NoteModel) (st : FlashState)
    (item : FlashItem) : FlashState :=
  match item with
  | .NoteModel name =>
      match available_models.find? (fun m => m.name == name) with
      | some model =>
          { st with
            current_model := some model
            builder := { st.builder with current_model := some model }
            defined_fields := [] }
      | none =>
          let available := String.intercalate (", ") (available_models.map (fun m => m.name))
          { st with
            diagnostics := st.diagnostics ++ [.UnknownModel name available]
            current_model := none
            defined_fields := [] }
  | .Field name content =>
      match st.current_model with
      | some model =>
          let is_valid_field :=
            model.fields.any (fun f => f.name == name) || st.builder.has_alias name
          if is_valid_field then
            { st with
              defined_fields := hashset_insert_str st.defined_fields name
              builder := st.builder.add_field { name := name, content := content } }
          else
            { st with diagnostics := st.diagnostics ++ [.UnknownField model.name name] }
      | none => { st with diagnostics := st.diagnostics ++ [.ModelNotSpecified] }
  | .Alias from_ to_ =>
      match st.current_model with
      | some model =>
          if model.fields.any (fun f => f.name == from_) then
            { st with builder := st.builder.add_alias from_ to_ }
          else
            { st with
              diagnostics := st.diagnostics ++ [.InvalidAliasTarget model.name from_ to_] }
      | none => { st with diagnostics := st.diagnostics ++ [.ModelNotSpecified] }
  | .Tags tags => { st with builder := st.builder.add_tags tags }
  | .Comment _ => st
  | .BlankLine => st

/-- The `validate` closure of `flash` (src/parse.rs): fold the item loop
over the parsed items, then `builder.into_notes()`; paired with the
diagnostics emitted along the way. -/
def flash_validate (available_models : List NoteModel) (items : List FlashItem) :
    List Note × List FlashError :=
  let final := items.foldl (flash_step available_models)
    { builder := NoteBuilder.default
      current_model := none
      defined_fields := []
      diagnostics := [] }
  (final.builder.into_notes, final.diagnostics)

/-- Rust `str::lines` on a character list: pieces split at each newline
or carriage-return-newline pair (one `\r` immediately before a `\n` is
part of the terminator and dropped), with no final empty piece when the
text ends in a terminator; a `\r` not followed by `\n` is an ordinary
character, including at the end of an unterminated final line. -/
def rlines : List Char → List (List Char)
  | [] => []
  | '\r' :: '\n' :: cs => [] :: rlines cs
  | c :: cs =>
      if c = '\n' then [] :: rlines cs
      else
        match rlines cs with
        | [] => [[c]]
        | l :: ls => (c :: l) :: ls

/-- Rust `char::is_whitespace`: the Unicode `White_Space` property
(U+0009..U+000D, U+0020, U+0085, U+00A0, U+1680, U+2000..U+200A, U+2028,
U+2029, U+202F, U+205F, U+3000). -/
def rust_is_whitespace (c : Char) : Bool :=
  (0x9 ≤ c.toNat && c.toNat ≤ 0xD) || c.toNat == 0x20 || c.toNat == 0x85 ||
  c.toNat == 0xA0 || c.toNat == 0x1680 ||
  (0x2000 ≤ c.toNat && c.toNat ≤ 0x200A) || c.toNat == 0x2028 ||
  c.toNat == 0x2029 || c.toNat == 0x202F || c.toNat == 0x205F ||
  c.toNat == 0x3000

/-- `str::trim` on a character list (Unicode whitespace stripped from
both ends). -/
def trim_chars (l : List Char) : List Char :=
  ((l.dropWhile rust_is_whitespace).reverse.dropWhile rust_is_whitespace).reverse

/-- `str::strip_prefix` on character lists. -/
def strip_chars (pre l : List Char) : Option (List Char) :=
  if pre.isPrefixOf l then some (l.drop pre.length) else none

/-- `str::ends_with("\n\n")`. -/
def ends_nn (l : List Char) : Bool :=
  ([ '\n', '\n' ] : List Char).isSuffixOf l

/-- The file-system façade `ImportExpander::expand` runs against:
`canonicalize` (`none` models the io error), `read_to_string`, and the
path arithmetic `current_file.parent().unwrap_or(base_dir).join(path)`.
Paths are opaque strings; file contents are character lists. -/
structure FsEnv where
  canonicalize : String → Option String
  read_to_string : String → Option (List Char)
  parent_join : String → String → List Char → String

/-- The failure cases of `ImportExpander::expand` (formatted strings in
the original; here the structured payloads).  `OutOfFuel` is an artifact
of the fuel-bounded embedding of the recursion; no theorem relies on it. -/
inductive ExpandError where
  | CannotResolvePath (path : String) : ExpandError
  | CircularImport (path : String) : ExpandError
  | CannotReadImport (path : String) : ExpandError
  | OutOfFuel : ExpandError
deriving DecidableEq, Repr

/-- The `for line in content.lines()` loop of `ImportExpander::expand`:
directive lines (trimmed line stripped of the directive keyword and a
space) are replaced by the recursive expansion of the referenced file,
followed by a newline unless the expansion already ends in a blank line;
other lines are copied verbatim with a newline.  `recurse` is the
recursive call at one fuel less; the visited set threads through. -/
def expand_loop
    (recurse : List String → List Char → String →
      Except ExpandError (List Char × List String))
    (env : FsEnv) (base_dir cur_file : String) :
    List (List Char) → List Char → List String →
    Except ExpandError (List Char × List String)
  | [], result, visited => .ok (result, visited)
  | line :: rest, result, visited =>
      let trimmed := trim_chars line
      match strip_chars (String.toList ("import ")) trimmed with
      | some raw =>
          let import_path := trim_chars raw
          let import_file := env.parent_join cur_file base_dir import_path
          match env.read_to_string import_file with
          | none => .error (.CannotReadImport import_file)
          | some imported =>
              match recurse visited imported import_file with
              | .error e => .error e
              | .ok (expanded, visited') =>
                  let result' :=
                    result ++ expanded ++ (if ends_nn expanded then [] else [ '\n' ])
                  expand_loop recurse env base_dir cur_file rest result' visited'
      | none =>
          expand_loop recurse env base_dir cur_file rest
            (result ++ line ++ [ '\n' ]) visited

/-- `ImportExpander::expand` from `src/parse.rs`: canonicalize the current
file, fail with the circular-import error when that canonical path is
already on the visited set, otherwise run the line loop with the path
pushed, and pop it afterwards.  `fuel` bounds the recursion depth (the
original recurses through the file system). -/
def expand (env : FsEnv) (base_dir : String) :
    Nat → List String → List Char → String →
    Except ExpandError (List Char × List String)
  | 0, _, _, _ => .error .OutOfFuel
  | fuel + 1, visited, content, cur_file =>
      match env.canonicalize cur_file with
      | none => .error (.CannotResolvePath cur_file)
      | some canonical =>
          if canonical ∈ visited then .error (.CircularImport cur_file)
          else
            match expand_loop (fun v c f => expand env base_dir fuel v c f)
                env base_dir cur_file (rlines content) [] (canonical :: visited) with
            | .error e => .error e
            | .ok (result, visited') => .ok (result, visited'.erase canonical)

/-- No line of `content` is a directive: stripping the directive keyword
off the trimmed line fails for every line. -/
def no_import_lines (content : List Char) : Bool :=
  (rlines content).all (fun line =>
    (strip_chars (String.toList ("import ")) (trim_chars line)).isNone)

/-- The identity modulo trailing newline: `content` itself when empty or
already newline-terminated, otherwise `content` with a final newline. -/
def normalize_trailing (content : List Char) : List Char :=
  if content = [] then []
  else if content.getLast? = some '\n' then content
  else content ++ [ '\n' ]

/-- A concrete note model for witnesses: `Basic` with fields `Front` and
`Back`. -/
def basicModel : NoteModel :=
  { name := "Basic"
    id := Uuid.nil
    templates := []
    schema_version := { major := 1, minor := 0, patch := 0 }
    defaults := none
    css := ""
    fields := [{ name := "Front", sticky := none, associated_media := none },
               { name := "Back", sticky := none, associated_media := none }]
    latex_pre := none
    latex_post := none
    sort_field := none
    tags := none
    required := "" }

/-- A concrete single-field note over `basicModel`, for witnesses. -/
def mkNote (front : String) : Note :=
  { fields := [{ name := "Front", content := [.text front] }]
    model := basicModel
    tags := [] }

/-!  Theorems.  Helper lemmas come first; each claim is settled by exactly
one theorem (plus, where required, a witness or a counterexample). -/

theorem resolve_mods_cons (p : Nat × Note) (rest : List (Nat × Note))
    (s : List (Identified Note)) (host : Uuid) :
    resolve_changes (.Modifications (p :: rest)) s host =
      resolve_changes (.Modifications rest)
        (match s[p.1]? with
         | some existing => s.set p.1 { id := existing.id, inner := p.2 }
         | none => s) host := by
  simp only [resolve_changes, List.foldl_cons]

theorem resolve_mods_length (l : List (Nat × Note)) (s : List (Identified Note))
    (host : Uuid) :
    (resolve_changes (.Modifications l) s host).length = s.length := by
  induction l generalizing s with
  | nil => rfl
  | cons p rest ih =>
      rw [resolve_mods_cons]
      cases h : s[p.1]? with
      | none => simpa using ih s
      | some e => simpa using ih (s.set p.1 { id := e.id, inner := p.2 })

theorem resolve_mods_frame (l : List (Nat × Note)) (s : List (Identified Note))
    (host : Uuid) (j : Nat) (hj : j ∉ l.map Prod.fst) :
    (resolve_changes (.Modifications l) s host)[j]? = s[j]? := by
  induction l generalizing s with
  | nil => rfl
  | cons p rest ih =>
      simp only [List.map_cons, List.mem_cons, not_or] at hj
      rw [resolve_mods_cons]
      cases h : s[p.1]? with
      | none => exact ih s hj.2
      | some e =>
          rw [ih _ hj.2]
          exact List.getElem?_set_ne (fun hja => hj.1 hja.symm)

/-- C1: applying a `Modifications` transform replaces `substrate[i].inner`
with the supplied note at each listed index while `substrate[i].id` is the
same before and after, and every entry at an index not listed is
unchanged (the listed indices being in bounds and pairwise distinct, as
the classifier produces them). -/
theorem modifications_preserve_ids_and_frame
    (l : List (Nat × Note)) (s : List (Identified Note)) (host : Uuid)
    (hb : ∀ p ∈ l, p.1 < s.length) (hnd : (l.map Prod.fst).Nodup) :
    (∀ p ∈ l, ∀ e, s[p.1]? = some e →
      (resolve_changes (.Modifications l) s host)[p.1]? =
        some { id := e.id, inner := p.2 }) ∧
    (∀ j, j ∉ l.map Prod.fst →
      (resolve_changes (.Modifications l) s host)[j]? = s[j]?) ∧
    (resolve_changes (.Modifications l) s host).length = s.length := by
  refine ⟨?_, fun j hj => resolve_mods_frame l s host j hj, resolve_mods_length l s host⟩
  induction l generalizing s with
  | nil => intro p hp; exact absurd hp (List.not_mem_nil p)
  | cons q rest ih =>
      simp only [List.map_cons, List.nodup_cons] at hnd
      intro p hp e he
      rcases List.mem_cons.mp hp with rfl | hmem
      · rw [resolve_mods_cons, he, resolve_mods_frame rest _ host p.1 hnd.1]
        exact List.getElem?_set_self (hb p (List.mem_cons_self p rest))
      · have hq : q.1 < s.length := hb q (List.mem_cons_self q rest)
        have hqe : ∃ eq', s[q.1]? = some eq' :=
          ⟨s[q.1], List.getElem?_eq_getElem hq⟩
        rcases hqe with ⟨eq', hqe⟩
        rw [resolve_mods_cons, hqe]
        have hne : q.1 ≠ p.1 := by
          intro hcontr
          exact hnd.1 (hcontr ▸ List.mem_map_of_mem Prod.fst hmem)
        have hb' : ∀ r ∈ rest, r.1 < (s.set q.1 { id := eq'.id, inner := q.2 }).length := by
          intro r hr
          simpa using hb r (List.mem_cons_of_mem q hr)
        have he' : (s.set q.1 { id := eq'.id, inner := q.2 })[p.1]? = some e := by
          rw [List.getElem?_set_ne hne]; exact he
        exact ih _ hb' hnd.2 p hmem e he'

/-- Witness for C1 at a concrete substrate and modification list. -/
theorem modifications_preserve_ids_and_frame_witness :
    (∀ p ∈ [((1 : Nat), mkNote "B2")], ∀ e,
        ([⟨Uuid.v5 Uuid.nil "x", mkNote "A"⟩,
          ⟨Uuid.v5 Uuid.nil "y", mkNote "B"⟩] : List (Identified Note))[p.1]? = some e →
      (resolve_changes (.Modifications [((1 : Nat), mkNote "B2")])
        [⟨Uuid.v5 Uuid.nil "x", mkNote "A"⟩, ⟨Uuid.v5 Uuid.nil "y", mkNote "B"⟩]
        Uuid.nil)[p.1]? = some { id := e.id, inner := p.2 }) ∧
    (∀ j, j ∉ ([((1 : Nat), mkNote "B2")].map Prod.fst) →
      (resolve_changes (.Modifications [((1 : Nat), mkNote "B2")])
        [⟨Uuid.v5 Uuid.nil "x", mkNote "A"⟩, ⟨Uuid.v5 Uuid.nil "y", mkNote "B"⟩]
        Uuid.nil)[j]? =
      ([⟨Uuid.v5 Uuid.nil "x", mkNote "A"⟩,
        ⟨Uuid.v5 Uuid.nil "y", mkNote "B"⟩] : List (Identified Note))[j]?) ∧
    (resolve_changes (.Modifications [((1 : Nat), mkNote "B2")])
      [⟨Uuid.v5 Uuid.nil "x", mkNote "A"⟩, ⟨Uuid.v5 Uuid.nil "y", mkNote "B"⟩]
      Uuid.nil).length = 2 :=
  modifications_preserve_ids_and_frame [((1 : Nat), mkNote "B2")]
    [⟨Uuid.v5 Uuid.nil "x", mkNote "A"⟩, ⟨Uuid.v5 Uuid.nil "y", mkNote "B"⟩]
    Uuid.nil (by decide) (by decide)

/-- C6: `determine_changes` always returns `Ok`; the payload is `None`
exactly when the two decks are equal, and otherwise it is exactly one of
the four transform categories. -/
theorem determine_changes_total_coverage (old new : List Note) :
    ∃ r, determine_changes old new = .ok r ∧ (r = none ↔ old = new) ∧
      (r = none ∨ (∃ l, r = some (.Additions l)) ∨ (∃ l, r = some (.Deletions l)) ∨
        (∃ l, r = some (.Modifications l)) ∨ (∃ l, r = some (.Reorders l))) := by
  unfold determine_changes
  by_cases h1 : old = new
  · exact ⟨none, by rw [if_pos h1], by simp [h1], Or.inl rfl⟩
  · rw [if_neg h1]
    by_cases h2 : old.length ≠ new.length
    · rw [if_pos h2]
      by_cases h3 : new.length > old.length
      · exact ⟨some (.Additions (additions_walk old new 0)), by rw [if_pos h3],
          by simp [h1], Or.inr (Or.inl ⟨_, rfl⟩)⟩
      · exact ⟨some (.Deletions (deletions_walk old new 0).reverse), by rw [if_neg h3],
          by simp [h1], Or.inr (Or.inr (Or.inl ⟨_, rfl⟩))⟩
    · rw [if_neg h2]
      by_cases h4 : sortNotes old = sortNotes new
      · exact ⟨some (.Reorders (reorder_pairs old new)), by simp only [if_pos h4],
          by simp [h1], Or.inr (Or.inr (Or.inr (Or.inr ⟨_, rfl⟩)))⟩
      · exact ⟨some (.Modifications (modifications_list old new)), by simp only [if_neg h4],
          by simp [h1], Or.inr (Or.inr (Or.inr (Or.inl ⟨_, rfl⟩)))⟩

theorem list_swap_length {α : Type} (l : List α) (i j : Nat) :
    (list_swap l i j).length = l.length := by
  unfold list_swap
  cases l[i]? <;> cases l[j]? <;> simp

/-- C10: `resolve_changes` performs unguarded indexing, and under the
precondition that every referenced index is within the substrate's bounds
at the moment it is used, the checked model (whose `none` marks exactly
the original's panics) succeeds and agrees with the total model: the
operation is total and no out-of-bounds access occurs. -/
theorem resolve_changes_in_bounds_total (s : List (Identified Note)) (host : Uuid) :
    (∀ dl, deletions_in_bounds dl s.length = true →
      resolve_changes_checked (.Deletions dl) s host =
        some (resolve_changes (.Deletions dl) s host)) ∧
    (∀ ml, (∀ p ∈ ml, p.1 < s.length) →
      resolve_changes_checked (.Modifications ml) s host =
        some (resolve_changes (.Modifications ml) s host)) ∧
    (∀ rl, (∀ p ∈ rl, p.1 < s.length ∧ p.2 < s.length) →
      resolve_changes_checked (.Reorders rl) s host =
        some (resolve_changes (.Reorders rl) s host)) := by
  refine ⟨?_, ?_, ?_⟩
  · intro dl
    induction dl generalizing s with
    | nil => intro _; rfl
    | cons i rest ih =>
        intro h
        simp only [deletions_in_bounds, Bool.and_eq_true, decide_eq_true_eq] at h
        have hlen : (s.eraseIdx i).length = s.length - 1 := by
          rw [List.length_eraseIdx]; rw [if_pos h.1]
        simp only [resolve_changes_checked, resolve_changes, List.foldlM_cons,
          List.foldl_cons, if_pos h.1, Option.bind_eq_bind, Option.some_bind]
        have := ih (s.eraseIdx i) (by rw [hlen]; exact h.2)
        simpa [resolve_changes_checked, resolve_changes] using this
  · intro ml
    induction ml generalizing s with
    | nil => intro _; rfl
    | cons p rest ih =>
        intro h
        have hp : p.1 < s.length := h p (List.mem_cons_self p rest)
        have hsome : s[p.1]? = some s[p.1] := List.getElem?_eq_getElem hp
        simp only [resolve_changes_checked, resolve_changes, List.foldlM_cons,
          List.foldl_cons, hsome, Option.bind_eq_bind, Option.some_bind]
        have hrest : ∀ q ∈ rest, q.1 < (s.set p.1 { id := s[p.1].id, inner := p.2 }).length := by
          intro q hq; simpa using h q (List.mem_cons_of_mem p hq)
        have := ih (s.set p.1 { id := s[p.1].id, inner := p.2 }) hrest
        simpa [resolve_changes_checked, resolve_changes] using this
  · intro rl
    induction rl generalizing s with
    | nil => intro _; rfl
    | cons p rest ih =>
        intro h
        have hp := h p (List.mem_cons_self p rest)
        simp only [resolve_changes_checked, resolve_changes, List.foldlM_cons,
          List.foldl_cons, if_pos hp, Option.bind_eq_bind, Option.some_bind]
        have hrest : ∀ q ∈ rest, q.1 < (list_swap s p.1 p.2).length ∧
            q.2 < (list_swap s p.1 p.2).length := by
          intro q hq
          rw [list_swap_length]
          exact h q (List.mem_cons_of_mem p hq)
        have := ih (list_swap s p.1 p.2) hrest
        simpa [resolve_changes_checked, resolve_changes] using this

/-- Witness for C10: one in-bounds instance of each of the three
transform kinds on a two-element substrate. -/
theorem resolve_changes_in_bounds_total_witness :
    (resolve_changes_checked (.Deletions [1, 0])
        [⟨Uuid.nil, mkNote "A"⟩, ⟨Uuid.nil, mkNote "B"⟩] Uuid.nil =
      some (resolve_changes (.Deletions [1, 0])
        [⟨Uuid.nil, mkNote "A"⟩, ⟨Uuid.nil, mkNote "B"⟩] Uuid.nil)) ∧
    (resolve_changes_checked (.Modifications [(0, mkNote "C")])
        [⟨Uuid.nil, mkNote "A"⟩, ⟨Uuid.nil, mkNote "B"⟩] Uuid.nil =
      some (resolve_changes (.Modifications [(0, mkNote "C")])
        [⟨Uuid.nil, mkNote "A"⟩, ⟨Uuid.nil, mkNote "B"⟩] Uuid.nil)) ∧
    (resolve_changes_checked (.Reorders [(0, 1)])
        [⟨Uuid.nil, mkNote "A"⟩, ⟨Uuid.nil, mkNote "B"⟩] Uuid.nil =
      some (resolve_changes (.Reorders [(0, 1)])
        [⟨Uuid.nil, mkNote "A"⟩, ⟨Uuid.nil, mkNote "B"⟩] Uuid.nil)) :=
  ⟨(resolve_changes_in_bounds_total
      [⟨Uuid.nil, mkNote "A"⟩, ⟨Uuid.nil, mkNote "B"⟩] Uuid.nil).1 [1, 0] (by decide),
   (resolve_changes_in_bounds_total
      [⟨Uuid.nil, mkNote "A"⟩, ⟨Uuid.nil, mkNote "B"⟩] Uuid.nil).2.1
      [(0, mkNote "C")] (by decide),
   (resolve_changes_in_bounds_total
      [⟨Uuid.nil, mkNote "A"⟩, ⟨Uuid.nil, mkNote "B"⟩] Uuid.nil).2.2
      [(0, 1)] (by decide)⟩

/-- C2: the history fold is supposed to classify, for each revision after
the first, the change between the *previous* revision's notes and the
current revision's notes.  The code instead seeds `bygone_cards` with the
empty vector, so the first cycle diffs `[]` against revision two: with
two identical single-note revisions the spec demands an unchanged
one-entry substrate, but the fold classifies an `Additions` and the note
is duplicated (and the duplicate is keyed in the nil namespace). -/
theorem history_fold_first_cycle_uses_empty_previous :
    process_card_history [[mkNote "A"], [mkNote "A"]] "alice" 0 =
      .ok [⟨Uuid.v5 Uuid.nil "FrontA", mkNote "A"⟩,
           ⟨Uuid.v5 (Uuid.v5 Uuid.dns "alice0") "FrontA", mkNote "A"⟩] := by
  rfl

/-- C3: a note inserted by an `Additions` transform during the history
fold is keyed by `v5(Uuid::default(), content_string(note))` — the nil
UUID namespace — because `process_cycle` passes `Uuid::default()` to
`resolve_changes`; the claim requires `v5(host_uuid, content_string)`
with `host_uuid` derived from the first revision's author and time, and
the two ids differ. -/
theorem additions_use_nil_namespace :
    process_card_history [[], [mkNote "A"]] "alice" 0 =
      .ok [⟨Uuid.v5 Uuid.nil "FrontA", mkNote "A"⟩] ∧
    Uuid.v5 Uuid.nil "FrontA" ≠
      generate_note_uuid (create_host_uuid "alice" 0) (mkNote "A").to_content_string := by
  exact ⟨by rfl, by decide⟩

/-- C4: under `Basic` with `alias Front to Q`, the field line `Q: …` is
accepted (the alias makes it valid) but the emitted `NoteField.name` is
the raw label `Q`, not the canonical `Front`: the validation fold pushes
`NoteField { name, .. }` without calling `resolve_field_name`. -/
theorem field_name_not_canonicalized :
    flash_validate [basicModel]
      [.NoteModel "Basic", .Alias "Front" "Q",
       .Field "Q" [.text "What is 2+2?"], .Field "Back" [.text "4"]] =
      ([{ fields := [{ name := "Q", content := [.text "What is 2+2?"] },
                     { name := "Back", content := [.text "4"] }]
          model := basicModel
          tags := [] }], []) ∧ ("Q" : String) ≠ "Front" := by
  exact ⟨by rfl, by decide⟩

/-- C5: a blank line between two groups of field lines does not finalize
the pending note — the fold's `BlankLine` arm does nothing — so the two
groups are merged into a single emitted note instead of two. -/
theorem blank_line_does_not_finalize :
    flash_validate [basicModel]
      [.NoteModel "Basic", .Field "Front" [.text "one"], .BlankLine,
       .Field "Front" [.text "two"]] =
      ([{ fields := [{ name := "Front", content := [.text "one"] },
                     { name := "Front", content := [.text "two"] }]
          model := basicModel
          tags := [] }], []) := by
  rfl

theorem expand_loop_no_imports
    (recurse : List String → List Char → String →
      Except ExpandError (List Char × List String))
    (env : FsEnv) (base_dir cur_file : String)
    (lines : List (List Char)) (acc : List Char) (visited : List String)
    (h : ∀ line ∈ lines,
      (strip_chars (String.toList ("import ")) (trim_chars line)).isNone = true) :
    expand_loop recurse env base_dir cur_file lines acc visited =
      .ok (acc ++ ((lines.map (fun l => l ++ [ '\n' ])).flatten), visited) := by
  induction lines generalizing acc with
  | nil => simp [expand_loop]
  | cons line rest ih =>
      have hnone : strip_chars (String.toList ("import ")) (trim_chars line) = none :=
        Option.isNone_iff_eq_none.mp (h line (List.mem_cons_self line rest))
      rw [expand_loop, hnone,
        ih (acc ++ line ++ [ '\n' ]) (fun l hl => h l (List.mem_cons_of_mem line hl))]
      simp [List.append_assoc]

theorem rlines_cons_of_ne_cr (c : Char) (cs : List Char) (hc : c ≠ '\r') :
    rlines (c :: cs) =
      if c = '\n' then [] :: rlines cs
      else
        match rlines cs with
        | [] => [[c]]
        | l :: ls => (c :: l) :: ls := by
  rw [rlines.eq_def]
  split
  · rename_i heq
    exact absurd heq (List.cons_ne_nil c cs)
  · rename_i heq
    exact absurd (List.cons.inj heq).1 hc
  · rename_i heq
    obtain ⟨h1, h2⟩ := List.cons.inj heq
    subst h1
    subst h2
    rfl

theorem rlines_cons_ne_nil (c : Char) (cs : List Char) : rlines (c :: cs) ≠ [] := by
  rw [rlines.eq_def]
  split
  · rename_i heq
    exact absurd heq (List.cons_ne_nil c cs)
  · simp
  · split
    · simp
    · split <;> simp

theorem rlines_eq_nil_iff (cs : List Char) : rlines cs = [] ↔ cs = [] := by
  cases cs with
  | nil => simp [rlines]
  | cons c cs' =>
      constructor
      · intro h
        exact absurd h (rlines_cons_ne_nil c cs')
      · intro h
        exact absurd h (List.cons_ne_nil c cs')

theorem normalize_trailing_cons (c : Char) (cs : List Char) (h : cs ≠ []) :
    normalize_trailing (c :: cs) = c :: normalize_trailing cs := by
  rcases List.exists_cons_of_ne_nil h with ⟨d, ds, rfl⟩
  unfold normalize_trailing
  rw [if_neg (by simp : ¬(c :: d :: ds = [])), if_neg (by simp : ¬(d :: ds = [])),
    List.getLast?_cons_cons]
  by_cases hl : (d :: ds).getLast? = some '\n'
  · rw [if_pos hl, if_pos hl]
  · rw [if_neg hl, if_neg hl, List.cons_append]

theorem rlines_join (cs : List Char) (hcr : '\r' ∉ cs) :
    ((rlines cs).map (fun l => l ++ [ '\n' ])).flatten = normalize_trailing cs := by
  induction cs with
  | nil => simp [rlines, normalize_trailing]
  | cons c cs' ih =>
      have hc_cr : c ≠ '\r' := fun h => hcr (h ▸ List.mem_cons_self c cs')
      have hcr' : '\r' ∉ cs' := fun h => hcr (List.mem_cons_of_mem c h)
      rw [rlines_cons_of_ne_cr c cs' hc_cr]
      by_cases hnil : cs' = []
      · subst hnil
        by_cases hc : c = '\n'
        · subst hc
          decide
        · rw [if_neg hc]
          have hnorm : normalize_trailing [c] = [c] ++ [ '\n' ] := by
            unfold normalize_trailing
            rw [if_neg (by simp), if_neg (by simp [hc])]
          simp [rlines, hnorm]
      · rw [normalize_trailing_cons c cs' hnil]
        by_cases hc : c = '\n'
        · rw [if_pos hc, hc]
          simp only [List.map_cons, List.flatten_cons, List.nil_append,
            List.singleton_append]
          exact congrArg (fun t => '\n' :: t) (ih hcr')
        · rw [if_neg hc]
          rcases hl : rlines cs' with _ | ⟨l, ls⟩
          · exact absurd ((rlines_eq_nil_iff cs').mp hl) hnil
          · have ih' := ih hcr'
            rw [hl] at ih'
            simp only [List.map_cons, List.flatten_cons] at ih' ⊢
            rw [← ih']
            simp

/-- C9 counterexample: the claim as stated fails on a text containing a
`\r\n` line ending.  On `"a\r\nb"` — which has no directive lines and a
resolvable, unvisited path — the expander rewrites the Windows line
ending to `\n` (each `str::lines` line is re-emitted with a bare `\n`),
so the output is not the input modulo trailing newline. -/
theorem import_expander_crlf_counterexample :
    no_import_lines ([ 'a', '\r', '\n', 'b' ]) = true ∧
    expand ⟨fun p => some p, fun _ => none, fun _ _ _ => ""⟩ "" 1 []
      ([ 'a', '\r', '\n', 'b' ]) "f" =
      .ok ([ 'a', '\n', 'b', '\n' ], []) ∧
    ([ 'a', '\n', 'b', '\n' ] : List Char) ≠
      normalize_trailing ([ 'a', '\r', '\n', 'b' ]) := by
  exact ⟨by decide, by decide, by decide⟩

/-- C9 (amended): expanding a text that contains no carriage-return
characters and no directive lines returns the text unchanged modulo
trailing newline, and when the canonical path of the file being expanded
is already on the expansion stack on entry, expansion fails with the
circular-import error for that path. -/
theorem import_expander_identity_and_cycle
    (env : FsEnv) (base_dir : String) (fuel : Nat) (visited : List String)
    (content : List Char) (cur_file canonical : String)
    (hc : env.canonicalize cur_file = some canonical) :
    (canonical ∈ visited →
      expand env base_dir (fuel + 1) visited content cur_file =
        .error (.CircularImport cur_file)) ∧
    (canonical ∉ visited → '\r' ∉ content → no_import_lines content = true →
      expand env base_dir (fuel + 1) visited content cur_file =
        .ok (normalize_trailing content, visited)) := by
  constructor
  · intro hmem
    simp only [expand, hc, if_pos hmem]
  · intro hmem hcr hni
    simp only [expand, hc, if_neg hmem]
    have hall : ∀ line ∈ rlines content,
        (strip_chars (String.toList ("import ")) (trim_chars line)).isNone = true := by
      intro line hl
      exact (List.all_eq_true.mp hni) line hl
    rw [expand_loop_no_imports _ env base_dir cur_file (rlines content) [] _ hall]
    rw [rlines_join content hcr]
    simp [List.erase_cons_head]

/-- Witness for C9: a carriage-return-free two-line import-free text is
reproduced with a trailing newline added, and a visited canonical path
triggers the circular-import error. -/
theorem import_expander_identity_and_cycle_witness :
    (expand ⟨fun p => some p, fun _ => none, fun _ _ _ => ""⟩ "" 1 []
        ([ 'h', 'i', '\n', 'y', 'o' ]) "f" =
      .ok ([ 'h', 'i', '\n', 'y', 'o', '\n' ], [])) ∧
    (expand ⟨fun p => some p, fun _ => none, fun _ _ _ => ""⟩ "" 1 ["f"]
        ([ 'h', 'i' ]) "f" =
      .error (.CircularImport "f")) :=
  ⟨by
    have := (import_expander_identity_and_cycle
      ⟨fun p => some p, fun _ => none, fun _ _ _ => ""⟩ "" 0 []
      ([ 'h', 'i', '\n', 'y', 'o' ]) "f" "f" rfl).2 (by decide) (by decide) (by decide)
    simpa [normalize_trailing] using this,
   (import_expander_identity_and_cycle
      ⟨fun p => some p, fun _ => none, fun _ _ _ => ""⟩ "" 0 ["f"]
      ([ 'h', 'i' ]) "f" "f" rfl).1 (by decide)⟩

theorem deletions_walk_shift (d1 : List Note) (d2 : List Note) (i : Nat) :
    deletions_walk d1 d2 (i + 1) = (deletions_walk d1 d2 i).map (fun x => x + 1) := by
  induction d1 generalizing d2 i with
  | nil => simp [deletions_walk]
  | cons n1 d1' ih =>
      cases d2 with
      | nil => simp [deletions_walk, ih]
      | cons n2 d2' =>
          by_cases h : n1 = n2
          · simp [deletions_walk, h, ih]
          · simp [deletions_walk, h, ih]

theorem foldl_eraseIdx_map_succ {α : Type} (idxs : List Nat) (e : α) (s : List α) :
    (idxs.map (fun x => x + 1)).foldl (fun t i => t.eraseIdx i) (e :: s) =
      e :: idxs.foldl (fun t i => t.eraseIdx i) s := by
  induction idxs generalizing s with
  | nil => rfl
  | cons i rest ih =>
      simp only [List.map_cons, List.foldl_cons, List.eraseIdx_cons_succ]
      exact ih (s.eraseIdx i)

theorem deletions_apply (d1 d2 : List Note) (s : List (Identified Note))
    (hsub : d2.Sublist d1) (hs : s.map Identified.inner = d1) :
    ((deletions_walk d1 d2 0).reverse.foldl (fun t i => t.eraseIdx i) s).map
      Identified.inner = d2 := by
  induction d1 generalizing d2 s with
  | nil =>
      rw [List.sublist_nil.mp hsub]
      have hs0 : s = [] := List.map_eq_nil_iff.mp hs
      subst hs0
      simp [deletions_walk]
  | cons x d1' ih =>
      cases s with
      | nil => simp at hs
      | cons e s' =>
          simp only [List.map_cons, List.cons.injEq] at hs
          obtain ⟨hex, hs'⟩ := hs
          cases d2 with
          | nil =>
              show ((deletions_walk (x :: d1') [] 0).reverse.foldl
                (fun t i => t.eraseIdx i) (e :: s')).map Identified.inner = []
              rw [show deletions_walk (x :: d1') [] 0 =
                    0 :: (deletions_walk d1' [] 0).map (fun x => x + 1) by
                  rw [deletions_walk, deletions_walk_shift]]
              rw [List.reverse_cons, List.foldl_append, ← List.map_reverse,
                foldl_eraseIdx_map_succ]
              simp only [List.foldl_cons, List.foldl_nil, List.eraseIdx_cons_zero]
              exact ih [] s' (List.nil_sublist d1') hs'
          | cons y d2' =>
              by_cases hxy : x = y
              · subst hxy
                have hsub' : d2'.Sublist d1' := List.cons_sublist_cons.mp hsub
                rw [show deletions_walk (x :: d1') (x :: d2') 0 =
                      (deletions_walk d1' d2' 0).map (fun x => x + 1) by
                    rw [deletions_walk, if_pos rfl, deletions_walk_shift]]
                rw [← List.map_reverse, foldl_eraseIdx_map_succ]
                simp only [List.map_cons]
                rw [hex, ih d2' s' hsub' hs']
              · have hsub' : (y :: d2').Sublist d1' := by
                  cases hsub with
                  | cons _ h => exact h
                  | cons₂ _ h => exact absurd rfl hxy
                rw [show deletions_walk (x :: d1') (y :: d2') 0 =
                      0 :: (deletions_walk d1' (y :: d2') 0).map (fun x => x + 1) by
                    rw [deletions_walk, if_neg hxy, deletions_walk_shift]]
                rw [List.reverse_cons, List.foldl_append, ← List.map_reverse,
                  foldl_eraseIdx_map_succ]
                simp only [List.foldl_cons, List.foldl_nil, List.eraseIdx_cons_zero]
                exact ih (y :: d2') s' hsub' hs'

theorem deletions_walk_sorted (d1 d2 : List Note) (i : Nat) :
    List.Chain' (· < ·) (deletions_walk d1 d2 i) ∧
      ∀ x ∈ deletions_walk d1 d2 i, i ≤ x := by
  induction d1 generalizing d2 i with
  | nil => simp [deletions_walk]
  | cons n1 d1' ih =>
      have step : ∀ d2', List.Chain' (· < ·) (i :: deletions_walk d1' d2' (i + 1)) ∧
          ∀ x ∈ i :: deletions_walk d1' d2' (i + 1), i ≤ x := by
        intro d2'
        obtain ⟨hch, hlb⟩ := ih d2' (i + 1)
        constructor
        · refine List.chain'_cons'.mpr ⟨?_, hch⟩
          intro b hb
          exact Nat.lt_of_succ_le (hlb b (List.mem_of_mem_head? hb))
        · intro x hx
          rcases List.mem_cons.mp hx with rfl | hx
          · exact Nat.le_refl x
          · exact Nat.le_of_succ_le (hlb x hx)
      cases d2 with
      | nil =>
          rw [show deletions_walk (n1 :: d1') [] i =
            i :: deletions_walk d1' [] (i + 1) from rfl]
          exact step []
      | cons n2 d2' =>
          by_cases h : n1 = n2
          · rw [show deletions_walk (n1 :: d1') (n2 :: d2') i =
              deletions_walk d1' d2' (i + 1) by rw [deletions_walk, if_pos h]]
            obtain ⟨hch, hlb⟩ := ih d2' (i + 1)
            exact ⟨hch, fun x hx => Nat.le_of_succ_le (hlb x hx)⟩
          · rw [show deletions_walk (n1 :: d1') (n2 :: d2') i =
              i :: deletions_walk d1' (n2 :: d2') (i + 1) by
                rw [deletions_walk, if_neg h]]
            exact step (n2 :: d2')

/-- C7: when `new` is a proper subsequence of `old`, `determine_changes`
returns `Deletions` whose entries are indices into `old` in strictly
descending order, and applying that transform through `resolve_changes`
to a substrate whose inner notes are `old` leaves inner notes `new`. -/
theorem deletions_classification_correct (old new : List Note)
    (hsub : new.Sublist old) (hne : new ≠ old) :
    determine_changes old new =
      .ok (some (.Deletions (deletions_walk old new 0).reverse)) ∧
    List.Chain' (· > ·) (deletions_walk old new 0).reverse ∧
    (∀ (s : List (Identified Note)) (host : Uuid),
      s.map Identified.inner = old →
      (resolve_changes (.Deletions (deletions_walk old new 0).reverse) s host).map
        Identified.inner = new) := by
  have hlt : new.length < old.length := by
    rcases Nat.lt_or_ge new.length old.length with h | h
    · exact h
    · exact absurd (hsub.eq_of_length (Nat.le_antisymm hsub.length_le h)) hne
  refine ⟨?_, ?_, ?_⟩
  · unfold determine_changes
    rw [if_neg (fun h => hne h.symm), if_pos (by omega : old.length ≠ new.length),
      if_neg (by omega : ¬ new.length > old.length)]
  · exact List.chain'_reverse.mpr (deletions_walk_sorted old new 0).1
  · intro s host hs
    simp only [resolve_changes]
    exact deletions_apply old new s hsub hs

/-- Witness for C7 on `old = [A, B, C]`, `new = [A, C]`. -/
theorem deletions_classification_correct_witness :
    determine_changes [mkNote "A", mkNote "B", mkNote "C"] [mkNote "A", mkNote "C"] =
      .ok (some (.Deletions (deletions_walk [mkNote "A", mkNote "B", mkNote "C"]
        [mkNote "A", mkNote "C"] 0).reverse)) ∧
    (resolve_changes
      (.Deletions (deletions_walk [mkNote "A", mkNote "B", mkNote "C"]
        [mkNote "A", mkNote "C"] 0).reverse)
      [⟨Uuid.nil, mkNote "A"⟩, ⟨Uuid.nil, mkNote "B"⟩, ⟨Uuid.nil, mkNote "C"⟩]
      Uuid.nil).map Identified.inner = [mkNote "A", mkNote "C"] :=
  ⟨(deletions_classification_correct [mkNote "A", mkNote "B", mkNote "C"]
      [mkNote "A", mkNote "C"] (by decide) (by decide)).1,
   (deletions_classification_correct [mkNote "A", mkNote "B", mkNote "C"]
      [mkNote "A", mkNote "C"] (by decide) (by decide)).2.2
      [⟨Uuid.nil, mkNote "A"⟩, ⟨Uuid.nil, mkNote "B"⟩, ⟨Uuid.nil, mkNote "C"⟩]
      Uuid.nil (by decide)⟩

theorem pair_disjoint_symm : Symmetric pair_disjoint := by
  intro p q h
  exact ⟨h.1.symm, h.2.2.1.symm, h.2.1.symm, h.2.2.2.symm⟩

theorem mem_hashset_insert (s : List (Nat × Nat)) (p q : Nat × Nat) :
    q ∈ hashset_insert s p ↔ q ∈ s ∨ q = p := by
  unfold hashset_insert
  by_cases h : p ∈ s
  · rw [if_pos h]
    constructor
    · exact Or.inl
    · rintro (hq | rfl)
      · exact hq
      · exact h
  · rw [if_neg h]
    simp

theorem nodup_hashset_insert (s : List (Nat × Nat)) (p : Nat × Nat)
    (h : s.Nodup) : (hashset_insert s p).Nodup := by
  unfold hashset_insert
  by_cases hp : p ∈ s
  · rw [if_pos hp]; exact h
  · rw [if_neg hp]
    simp [List.nodup_append, h, hp]

theorem findIdx?_eq_some_of_unique {α : Type} (p : α → Bool) (l : List α) (j : Nat)
    (hj : ∃ v, l[j]? = some v ∧ p v = true)
    (hbefore : ∀ k v, k < j → l[k]? = some v → p v = false) :
    l.findIdx? p = some j := by
  induction l generalizing j with
  | nil => obtain ⟨v, hv, _⟩ := hj; simp at hv
  | cons a l' ih =>
      cases j with
      | zero =>
          obtain ⟨v, hv, hpv⟩ := hj
          simp only [List.getElem?_cons_zero, Option.some.injEq] at hv
          subst hv
          simp [List.findIdx?_cons, hpv]
      | succ j' =>
          have hpa : p a = false := hbefore 0 a (Nat.succ_pos j') (by simp)
          rw [List.findIdx?_cons, if_neg (by simp [hpa]), List.findIdx?_succ,
            ih j' ?_ ?_]
          · rfl
          · obtain ⟨v, hv, hpv⟩ := hj
            exact ⟨v, by simpa using hv, hpv⟩
          · intro k v hk hkv
            exact hbefore (k + 1) v (Nat.succ_lt_succ hk) (by simpa using hkv)

theorem set_cons_perm {α : Type} (l : List α) (j : Nat) (v x : α)
    (h : l[j]? = some v) : (v :: l.set j x).Perm (x :: l) := by
  induction l generalizing j with
  | nil => simp at h
  | cons a l' ih =>
      cases j with
      | zero =>
          simp only [List.getElem?_cons_zero, Option.some.injEq] at h
          subst h
          exact List.Perm.swap x a l'
      | succ j' =>
          simp only [List.getElem?_cons_succ] at h
          simp only [List.set_cons_succ]
          exact (List.Perm.swap a v _).trans (((ih j' h).cons a).trans
            (List.Perm.swap x a l'))

theorem list_swap_perm {α : Type} (l : List α) (a b : Nat) :
    (list_swap l a b).Perm l := by
  induction l generalizing a b with
  | nil => unfold list_swap; simp
  | cons c l'' ih =>
      unfold list_swap
      cases ha : (c :: l'')[a]? with
      | none => exact List.Perm.refl _
      | some va =>
          cases hb : (c :: l'')[b]? with
          | none => exact List.Perm.refl _
          | some vb =>
              cases a with
              | zero =>
                  simp only [List.getElem?_cons_zero, Option.some.injEq] at ha
                  cases b with
                  | zero =>
                      simp only [List.getElem?_cons_zero, Option.some.injEq] at hb
                      subst ha; subst hb
                      simp
                  | succ b' =>
                      simp only [List.getElem?_cons_succ] at hb
                      subst ha
                      simp only [List.set_cons_zero, List.set_cons_succ]
                      exact set_cons_perm l'' b' vb c hb
              | succ a' =>
                  simp only [List.getElem?_cons_succ] at ha
                  cases b with
                  | zero =>
                      simp only [List.getElem?_cons_zero, Option.some.injEq] at hb
                      subst hb
                      simp only [List.set_cons_succ, List.set_cons_zero]
                      exact set_cons_perm l'' a' va c ha
                  | succ b' =>
                      simp only [List.getElem?_cons_succ] at hb
                      simp only [List.set_cons_succ]
                      have := ih a' b'
                      unfold list_swap at this
                      rw [ha, hb] at this
                      exact this.cons c

theorem map_list_swap {α β : Type} (f : α → β) (l : List α) (a b : Nat) :
    (list_swap l a b).map f = list_swap (l.map f) a b := by
  unfold list_swap
  cases ha : l[a]? with
  | none => simp [List.getElem?_map, ha]
  | some va =>
      cases hb : l[b]? with
      | none => simp [List.getElem?_map, ha, hb]
      | some vb => simp [List.getElem?_map, ha, hb, List.map_set]

theorem getElem?_lt_length {α : Type} {l : List α} {i : Nat} {v : α}
    (h : l[i]? = some v) : i < l.length := by
  by_contra hc
  rw [List.getElem?_eq_none (Nat.le_of_not_lt hc)] at h
  exact Option.noConfusion h

theorem list_swap_getElem?_fst {α : Type} (l : List α) (a b : Nat) (va vb : α)
    (ha : l[a]? = some va) (hb : l[b]? = some vb) :
    (list_swap l a b)[a]? = some vb := by
  unfold list_swap
  rw [ha, hb]
  show ((l.set a vb).set b va)[a]? = some vb
  by_cases hab : a = b
  · subst hab
    rw [List.set_set, List.getElem?_set_self (getElem?_lt_length ha)]
    rw [ha] at hb
    exact congrArg some (Option.some.inj hb)
  · rw [List.getElem?_set_ne (fun h => hab h.symm),
      List.getElem?_set_self (getElem?_lt_length ha)]

theorem list_swap_getElem?_snd {α : Type} (l : List α) (a b : Nat) (va vb : α)
    (ha : l[a]? = some va) (hb : l[b]? = some vb) :
    (list_swap l a b)[b]? = some va := by
  unfold list_swap
  rw [ha, hb]
  show ((l.set a vb).set b va)[b]? = some va
  have hbl : b < (l.set a vb).length := by
    rw [List.length_set]; exact getElem?_lt_length hb
  exact List.getElem?_set_self hbl

theorem list_swap_getElem?_frame {α : Type} (l : List α) (a b j : Nat)
    (hja : j ≠ a) (hjb : j ≠ b) :
    (list_swap l a b)[j]? = l[j]? := by
  unfold list_swap
  cases ha : l[a]? with
  | none => rfl
  | some va =>
      cases hb : l[b]? with
      | none => rfl
      | some vb =>
          show (((l.set a vb).set b va))[j]? = l[j]?
          rw [List.getElem?_set_ne (fun h => hjb h.symm),
            List.getElem?_set_ne (fun h => hja h.symm)]

theorem foldl_swaps_map {α β : Type} (f : α → β) (L : List (Nat × Nat)) (s : List α) :
    (L.foldl (fun t p => list_swap t p.1 p.2) s).map f =
      L.foldl (fun t p => list_swap t p.1 p.2) (s.map f) := by
  induction L generalizing s with
  | nil => rfl
  | cons p L' ih =>
      simp only [List.foldl_cons]
      rw [ih, map_list_swap]

theorem foldl_swaps_perm {α : Type} (L : List (Nat × Nat)) (s : List α) :
    (L.foldl (fun t p => list_swap t p.1 p.2) s).Perm s := by
  induction L generalizing s with
  | nil => exact List.Perm.refl s
  | cons p L' ih =>
      simp only [List.foldl_cons]
      exact (ih (list_swap s p.1 p.2)).trans (list_swap_perm s p.1 p.2)

theorem swaps_apply (L : List (Nat × Nat)) (old new : List Note)
    (hlen : new.length = old.length)
    (hgood : ∀ p ∈ L, p.1 < old.length ∧ p.2 < old.length ∧
      new[p.1]? = old[p.2]? ∧ new[p.2]? = old[p.1]?)
    (hdisj : List.Pairwise pair_disjoint L)
    (hcov : ∀ i, i < old.length → (∀ p ∈ L, i ≠ p.1 ∧ i ≠ p.2) → new[i]? = old[i]?) :
    L.foldl (fun t p => list_swap t p.1 p.2) old = new := by
  induction L generalizing old with
  | nil =>
      simp only [List.foldl_nil]
      apply List.ext_getElem?
      intro n
      by_cases hn : n < old.length
      · exact (hcov n hn (by simp)).symm
      · rw [List.getElem?_eq_none (Nat.le_of_not_lt hn),
          List.getElem?_eq_none (by omega)]
  | cons p L' ih =>
      obtain ⟨hp1, hp2, hnp1, hnp2⟩ := hgood p (List.mem_cons_self p L')
      have hva : old[p.1]? = some old[p.1] := List.getElem?_eq_getElem hp1
      have hvb : old[p.2]? = some old[p.2] := List.getElem?_eq_getElem hp2
      have hlen' : new.length = (list_swap old p.1 p.2).length := by
        rw [list_swap_length]; exact hlen
      simp only [List.foldl_cons]
      apply ih (list_swap old p.1 p.2) hlen'
      · intro q hq
        have hdq : pair_disjoint p q := (List.pairwise_cons.mp hdisj).1 q hq
        obtain ⟨hq1, hq2, hnq1, hnq2⟩ := hgood q (List.mem_cons_of_mem p hq)
        rw [list_swap_length]
        refine ⟨hq1, hq2, ?_, ?_⟩
        · rw [list_swap_getElem?_frame old p.1 p.2 q.2 hdq.2.1.symm hdq.2.2.2.symm]
          exact hnq1
        · rw [list_swap_getElem?_frame old p.1 p.2 q.1 hdq.1.symm hdq.2.2.1.symm]
          exact hnq2
      · exact (List.pairwise_cons.mp hdisj).2
      · intro i hi hiL
        rw [list_swap_length] at hi
        by_cases hia : i = p.1
        · subst hia
          rw [list_swap_getElem?_fst old p.1 p.2 _ _ hva hvb, hnp1, hvb]
        · by_cases hib : i = p.2
          · subst hib
            rw [list_swap_getElem?_snd old p.1 p.2 _ _ hva hvb, hnp2, hva]
          · rw [list_swap_getElem?_frame old p.1 p.2 i hia hib]
            refine hcov i hi ?_
            intro q hq
            rcases List.mem_cons.mp hq with rfl | hq'
            · exact ⟨hia, hib⟩
            · exact hiL q hq'

theorem reorder_new_value_at (old new : List Note) (ps : List (Nat × Nat))
    (hnd : old.Nodup) (hlen : new.length = old.length)
    (hpairs : ∀ p ∈ ps, p.1 < p.2 ∧ p.2 < old.length ∧
      new[p.1]? = old[p.2]? ∧ new[p.2]? = old[p.1]? ∧ old[p.1]? ≠ old[p.2]?)
    (hdisj : List.Pairwise pair_disjoint ps)
    (hcov : ∀ i, i < old.length → (∀ p ∈ ps, i ≠ p.1 ∧ i ≠ p.2) → new[i]? = old[i]?)
    (q : Nat × Nat) (hq : q ∈ ps) :
    (∀ k, ∀ va, old[q.1]? = some va → new[k]? = some va → k = q.2) ∧
    (∀ k, ∀ vb, old[q.2]? = some vb → new[k]? = some vb → k = q.1) := by
  obtain ⟨hqlt, hq2, hnq1, hnq2, hqne⟩ := hpairs q hq
  have hq1 : q.1 < old.length := Nat.lt_trans hqlt hq2
  constructor
  · intro k va hva hk
    have hklen : k < old.length := by
      have := getElem?_lt_length hk; omega
    by_cases hfree : ∀ p ∈ ps, k ≠ p.1 ∧ k ≠ p.2
    · exfalso
      have h1 : new[k]? = old[k]? := hcov k hklen hfree
      have h2 : k = q.1 :=
        List.getElem?_inj hklen hnd (by rw [← h1, hk, hva])
      subst h2
      exact hqne (by rw [hva, ← hk, hnq1])
    · push_neg at hfree
      obtain ⟨r, hr, hrk⟩ := hfree
      by_cases hk1 : k = r.1
      · exfalso
        subst hk1
        obtain ⟨_, hr2, hnr1, _, _⟩ := hpairs r hr
        have heq : r.2 = q.1 :=
          List.getElem?_inj hr2 hnd (by rw [← hnr1, hk, hva])
        by_cases hqr : q = r
        · subst hqr; omega
        · exact (List.Pairwise.forall pair_disjoint_symm hdisj hq hr hqr).2.1
            heq.symm
      · have hk2 : k = r.2 := hrk hk1
        subst hk2
        obtain ⟨hrlt, hr2, _, hnr2, _⟩ := hpairs r hr
        have hr1 : r.1 < old.length := by omega
        have heq : r.1 = q.1 :=
          List.getElem?_inj hr1 hnd (by rw [← hnr2, hk, hva])
        by_cases hqr : q = r
        · subst hqr; rfl
        · exact absurd heq.symm
            (List.Pairwise.forall pair_disjoint_symm hdisj hq hr hqr).1
  · intro k vb hvb hk
    have hklen : k < old.length := by
      have := getElem?_lt_length hk; omega
    by_cases hfree : ∀ p ∈ ps, k ≠ p.1 ∧ k ≠ p.2
    · exfalso
      have h1 : new[k]? = old[k]? := hcov k hklen hfree
      have h2 : k = q.2 :=
        List.getElem?_inj hklen hnd (by rw [← h1, hk, hvb])
      subst h2
      exact hqne (by rw [← hnq2, hk, hvb])
    · push_neg at hfree
      obtain ⟨r, hr, hrk⟩ := hfree
      by_cases hk1 : k = r.1
      · subst hk1
        obtain ⟨_, hr2, hnr1, _, _⟩ := hpairs r hr
        have heq : r.2 = q.2 :=
          List.getElem?_inj hr2 hnd (by rw [← hnr1, hk, hvb])
        by_cases hqr : q = r
        · subst hqr; omega
        · exact absurd heq.symm
            (List.Pairwise.forall pair_disjoint_symm hdisj hq hr hqr).2.2.2
      · exfalso
        have hk2 : k = r.2 := hrk hk1
        subst hk2
        obtain ⟨hrlt, hr2, _, hnr2, _⟩ := hpairs r hr
        have hr1 : r.1 < old.length := by omega
        have heq : r.1 = q.2 :=
          List.getElem?_inj hr1 hnd (by rw [← hnr2, hk, hvb])
        by_cases hqr : q = r
        · subst hqr; omega
        · exact (List.Pairwise.forall pair_disjoint_symm hdisj hq hr hqr).2.2.1
            heq.symm

theorem reorder_pairs_walk_spec (old new : List Note) (ps : List (Nat × Nat))
    (hnd : old.Nodup) (hlen : new.length = old.length)
    (hpairs : ∀ p ∈ ps, p.1 < p.2 ∧ p.2 < old.length ∧
      new[p.1]? = old[p.2]? ∧ new[p.2]? = old[p.1]? ∧ old[p.1]? ≠ old[p.2]?)
    (hdisj : List.Pairwise pair_disjoint ps)
    (hcov : ∀ i, i < old.length → (∀ p ∈ ps, i ≠ p.1 ∧ i ≠ p.2) → new[i]? = old[i]?) :
    ∀ (d1 : List Note) (i : Nat) (s : List (Nat × Nat)),
      d1 = old.drop i →
      (∀ p ∈ s, p ∈ ps) → (∀ p ∈ ps, p.1 < i → p ∈ s) → s.Nodup →
      (∀ p ∈ reorder_pairs_walk d1 (new.drop i) new i s, p ∈ ps) ∧
      (∀ p ∈ ps, p ∈ reorder_pairs_walk d1 (new.drop i) new i s) ∧
      (reorder_pairs_walk d1 (new.drop i) new i s).Nodup := by
  intro d1
  induction d1 with
  | nil =>
      intro i s hd hsub hin hnod
      have hi : old.length ≤ i := by
        have hlen2 := congrArg List.length hd
        simp only [List.length_nil, List.length_drop] at hlen2
        omega
      refine ⟨?_, ?_, ?_⟩ <;> simp only [reorder_pairs_walk]
      · exact hsub
      · intro p hp
        obtain ⟨h1, h2, _⟩ := hpairs p hp
        exact hin p hp (by omega)
      · exact hnod
  | cons card1 d1' ih =>
      intro i s hd hsub hin hnod
      have hlend := congrArg List.length hd
      simp only [List.length_cons, List.length_drop] at hlend
      have hi : i < old.length := by omega
      have hold_i : old[i]? = some card1 := by
        have h0 : (old.drop i)[0]? = old[i + 0]? := List.getElem?_drop old i 0
        rw [← hd] at h0
        simpa using h0.symm
      have hd1' : d1' = old.drop (i + 1) := by
        rw [← List.tail_drop, ← hd]
        rfl
      have hni : i < new.length := by omega
      have hnew_i : new[i]? = some new[i] := List.getElem?_eq_getElem hni
      have hndrop : new.drop i = new[i] :: new.drop (i + 1) :=
        List.drop_eq_getElem_cons hni
      rw [hndrop]
      by_cases hcc : card1 = new[i]
      · have hstep : reorder_pairs_walk (card1 :: d1') (new[i] :: new.drop (i + 1)) new i s =
            reorder_pairs_walk d1' (new.drop (i + 1)) new (i + 1) s := by
          simp [reorder_pairs_walk, hcc]
        rw [hstep]
        refine ih (i + 1) s hd1' hsub ?_ hnod
        intro p hp hpi
        rcases Nat.lt_succ_iff_lt_or_eq.mp hpi with h | h
        · exact hin p hp h
        · exfalso
          obtain ⟨hplt, hp2, hnp1, hnp2, hpne⟩ := hpairs p hp
          apply hpne
          rw [h, hold_i, hcc, ← hnew_i]
          exact h ▸ hnp1
      · have hex : ∃ q ∈ ps, i = q.1 ∨ i = q.2 := by
          by_contra hno
          push_neg at hno
          have hcv := hcov i hi (fun p hp => ⟨(hno p hp).1, (hno p hp).2⟩)
          rw [hnew_i, hold_i] at hcv
          exact hcc (Option.some.inj hcv).symm
        obtain ⟨q, hq, hside⟩ := hex
        obtain ⟨hqlt, hq2len, hnq1, hnq2, hqne⟩ := hpairs q hq
        have huniq := reorder_new_value_at old new ps hnd hlen hpairs hdisj hcov q hq
        have hinv : (∀ p ∈ hashset_insert s q, p ∈ ps) ∧
            (∀ p ∈ ps, p.1 < i + 1 → p ∈ hashset_insert s q) ∧
            (hashset_insert s q).Nodup := by
          refine ⟨?_, ?_, nodup_hashset_insert s q hnod⟩
          · intro p hp
            rcases (mem_hashset_insert s q p).mp hp with h | rfl
            · exact hsub p h
            · exact hq
          · intro p hp hpi
            rcases Nat.lt_succ_iff_lt_or_eq.mp hpi with h | h
            · exact (mem_hashset_insert s q p).mpr (Or.inl (hin p hp h))
            · rcases hside with hq1i | hq2i
              · by_cases hpq : p = q
                · exact (mem_hashset_insert s q p).mpr (Or.inr hpq)
                · exact absurd (h.trans hq1i)
                    (List.Pairwise.forall pair_disjoint_symm hdisj hp hq hpq).1
              · exfalso
                by_cases hpq : p = q
                · subst hpq; omega
                · exact (List.Pairwise.forall pair_disjoint_symm hdisj hp hq hpq).2.1
                    (h.trans hq2i)
        rcases hside with hq1i | hq2i
        · have hfind : new.findIdx? (fun cur => cur == card1) = some q.2 := by
            apply findIdx?_eq_some_of_unique
            · exact ⟨card1, by rw [hnq2, ← hq1i, hold_i], by simp⟩
            · intro k v hkj hkv
              by_contra hfalse
              rw [Bool.not_eq_false, beq_iff_eq] at hfalse
              subst hfalse
              have := huniq.1 k v (by rw [← hq1i, hold_i]) hkv
              omega
          have hstep : reorder_pairs_walk (card1 :: d1')
              (new[i] :: new.drop (i + 1)) new i s =
              reorder_pairs_walk d1' (new.drop (i + 1)) new (i + 1)
                (hashset_insert s q) := by
            have hiq2 : i < q.2 := by omega
            have hpe : (i, q.2) = q := by rw [hq1i]
            simp [reorder_pairs_walk, hcc, hfind, hiq2, hpe]
          rw [hstep]
          exact ih (i + 1) (hashset_insert s q) hd1' hinv.1 hinv.2.1 hinv.2.2
        · have hfind : new.findIdx? (fun cur => cur == card1) = some q.1 := by
            apply findIdx?_eq_some_of_unique
            · exact ⟨card1, by rw [hnq1, ← hq2i, hold_i], by simp⟩
            · intro k v hkj hkv
              by_contra hfalse
              rw [Bool.not_eq_false, beq_iff_eq] at hfalse
              subst hfalse
              have := huniq.2 k v (by rw [← hq2i, hold_i]) hkv
              omega
          have hstep : reorder_pairs_walk (card1 :: d1')
              (new[i] :: new.drop (i + 1)) new i s =
              reorder_pairs_walk d1' (new.drop (i + 1)) new (i + 1)
                (hashset_insert s q) := by
            have hiq1 : ¬ i < q.1 := by omega
            have hpe : (q.1, i) = q := by rw [hq2i]
            simp [reorder_pairs_walk, hcc, hfind, hiq1, hpe]
          rw [hstep]
          exact ih (i + 1) (hashset_insert s q) hd1' hinv.1 hinv.2.1 hinv.2.2

theorem reorders_output_eq (old new : List Note) (S : List (Nat × Nat))
    (hro : determine_changes old new = .ok (some (.Reorders S))) :
    S = reorder_pairs old new ∧ old.length = new.length ∧ old ≠ new := by
  simp only [determine_changes] at hro
  split_ifs at hro with h1 h2 h3 h4
  · exact absurd hro (by simp)
  · exact absurd hro (by simp)
  · exact absurd hro (by simp)
  · simp only [Except.ok.injEq, Option.some.injEq, Transforms.Reorders.injEq] at hro
    exact ⟨hro.symm, not_ne_iff.mp h2, h1⟩
  · exact absurd hro (by simp)

/-- C8 counterexample: for the three-cycle `old = [A, B, C]`,
`new = [B, C, A]` (a permutation, equal sorted copies, unequal order) the
produced `Reorders` is `{(0,2), (0,1), (1,2)}`, and applying it via
`resolve_changes` does not yield the order of `new` — the pairwise-swap
representation cannot express a 3-cycle (no order of these transpositions
composes to it). -/
theorem reorders_three_cycle_counterexample :
    determine_changes [mkNote "A", mkNote "B", mkNote "C"]
      [mkNote "B", mkNote "C", mkNote "A"] =
      .ok (some (.Reorders [(0, 2), (0, 1), (1, 2)])) ∧
    (resolve_changes (.Reorders [(0, 2), (0, 1), (1, 2)])
      [⟨Uuid.v5 Uuid.nil "a", mkNote "A"⟩, ⟨Uuid.v5 Uuid.nil "b", mkNote "B"⟩,
       ⟨Uuid.v5 Uuid.nil "c", mkNote "C"⟩] Uuid.nil).map Identified.inner ≠
      [mkNote "B", mkNote "C", mkNote "A"] := by
  exact ⟨by decide, by decide⟩

/-- C8 (amended): for `old` with pairwise-distinct notes and `new`
obtained from `old` by swapping pairwise-disjoint index pairs (each pair
`(a, b)` with `a < b` in bounds, `new` crosswise equal to `old` there,
equal elsewhere), applying the `Reorders` produced by `determine_changes`
to a substrate whose inner notes equal `old` preserves the multiset of id
values and yields inner notes exactly in the order of `new`. -/
theorem reorders_disjoint_swaps_correct
    (old new : List Note) (ps S : List (Nat × Nat))
    (hnd : old.Nodup)
    (hlen : new.length = old.length)
    (hpairs : ∀ p ∈ ps, p.1 < p.2 ∧ p.2 < old.length ∧
      new[p.1]? = old[p.2]? ∧ new[p.2]? = old[p.1]? ∧ old[p.1]? ≠ old[p.2]?)
    (hdisj : List.Pairwise pair_disjoint ps)
    (hcov : ∀ i, i < old.length → (∀ p ∈ ps, i ≠ p.1 ∧ i ≠ p.2) → new[i]? = old[i]?)
    (hro : determine_changes old new = .ok (some (.Reorders S)))
    (s : List (Identified Note)) (host : Uuid)
    (hs : s.map Identified.inner = old) :
    (resolve_changes (.Reorders S) s host).map Identified.inner = new ∧
    ((resolve_changes (.Reorders S) s host).map Identified.id).Perm
      (s.map Identified.id) := by
  obtain ⟨hS, _, _⟩ := reorders_output_eq old new S hro
  have hspec := reorder_pairs_walk_spec old new ps hnd hlen hpairs hdisj hcov
    old 0 [] (List.drop_zero old).symm (by simp)
    (fun p hp h => absurd h (Nat.not_lt_zero _)) List.nodup_nil
  simp only [List.drop_zero] at hspec
  have hLsub : ∀ p ∈ reorder_pairs old new, p ∈ ps := hspec.1
  have hLall : ∀ p ∈ ps, p ∈ reorder_pairs old new := hspec.2.1
  have hLnodup : (reorder_pairs old new).Nodup := hspec.2.2
  subst hS
  constructor
  · simp only [resolve_changes]
    rw [foldl_swaps_map Identified.inner (reorder_pairs old new) s, hs]
    apply swaps_apply (reorder_pairs old new) old new hlen
    · intro p hp
      obtain ⟨h1, h2, h3, h4, _⟩ := hpairs p (hLsub p hp)
      exact ⟨by omega, h2, h3, h4⟩
    · refine List.Pairwise.imp_of_mem ?_ hLnodup
      intro a b ha hb hne'
      exact List.Pairwise.forall pair_disjoint_symm hdisj (hLsub a ha) (hLsub b hb) hne'
    · intro i hi hiL
      refine hcov i hi ?_
      intro p hp
      exact hiL p (hLall p hp)
  · simp only [resolve_changes]
    rw [foldl_swaps_map Identified.id (reorder_pairs old new) s]
    exact foldl_swaps_perm (reorder_pairs old new) (s.map Identified.id)

/-- Witness for the amended C8 on two disjoint swaps:
`old = [A, B, C, D]`, `new = [B, A, D, C]`. -/
theorem reorders_disjoint_swaps_correct_witness :
    (resolve_changes (.Reorders [(0, 1), (2, 3)])
      [⟨Uuid.v5 Uuid.nil "a", mkNote "A"⟩, ⟨Uuid.v5 Uuid.nil "b", mkNote "B"⟩,
       ⟨Uuid.v5 Uuid.nil "c", mkNote "C"⟩, ⟨Uuid.v5 Uuid.nil "d", mkNote "D"⟩]
      Uuid.nil).map Identified.inner =
      [mkNote "B", mkNote "A", mkNote "D", mkNote "C"] ∧
    ((resolve_changes (.Reorders [(0, 1), (2, 3)])
      [⟨Uuid.v5 Uuid.nil "a", mkNote "A"⟩, ⟨Uuid.v5 Uuid.nil "b", mkNote "B"⟩,
       ⟨Uuid.v5 Uuid.nil "c", mkNote "C"⟩, ⟨Uuid.v5 Uuid.nil "d", mkNote "D"⟩]
      Uuid.nil).map Identified.id).Perm
      (([⟨Uuid.v5 Uuid.nil "a", mkNote "A"⟩, ⟨Uuid.v5 Uuid.nil "b", mkNote "B"⟩,
         ⟨Uuid.v5 Uuid.nil "c", mkNote "C"⟩, ⟨Uuid.v5 Uuid.nil "d", mkNote "D"⟩] :
        List (Identified Note)).map Identified.id) :=
  reorders_disjoint_swaps_correct
    [mkNote "A", mkNote "B", mkNote "C", mkNote "D"]
    [mkNote "B", mkNote "A", mkNote "D", mkNote "C"]
    [(0, 1), (2, 3)] [(0, 1), (2, 3)]
    (by decide) (by decide) (by decide) (by decide) (by decide) (by decide)
    [⟨Uuid.v5 Uuid.nil "a", mkNote "A"⟩, ⟨Uuid.v5 Uuid.nil "b", mkNote "B"⟩,
     ⟨Uuid.v5 Uuid.nil "c", mkNote "C"⟩, ⟨Uuid.v5 Uuid.nil "d", mkNote "D"⟩]
    Uuid.nil (by decide)

end Anki
